import Mathlib

/-!
Verification of the RoboRacer participation-map pipeline (`app.py`).

The script loads one spreadsheet sheet per competition, forward-fills the
team-identifying columns, drops separator rows, splits compound country
fields, normalizes country aliases, aggregates per-(competition, country)
and per-country-across-all-competitions statistics, and serves a reactive
callback computing metric options, the resolved metric and a colorbar tick.

This file gives a shallow embedding of those operations and proves the
specified properties about them.
-/

/-! ## Whitespace and the separator-replacement regex

`df_split['COUNTRY'].str.replace(r'\s*&\s*|\s*/\s*|\s+and\s+', ',', regex=True)`
is modelled character-exactly: scanning left to right, at each position the
alternatives are tried (a `&` or `/` with optional surrounding whitespace, or
the word `and` with mandatory surrounding whitespace); a match is replaced by
one comma and scanning resumes after the consumed characters. -/

def isSpace (c : Char) : Bool :=
  c = ' ' || c = '\t' || c = '\n' || c = '\r' || c.toNat = 11 || c.toNat = 12

/-- Attempt to match one regex alternative at the head of `l`.
Returns the remaining characters after the match, if any alternative matches
here.  The greedy `\s*` / `\s+` can only succeed at the end of the
whitespace run, since the character after the run is not whitespace. -/
def sepMatch (l : List Char) : Option (List Char) :=
  let ws := l.takeWhile isSpace
  match l.dropWhile isSpace with
  | '&' :: t => some (t.dropWhile isSpace)
  | '/' :: t => some (t.dropWhile isSpace)
  | 'a' :: 'n' :: 'd' :: t =>
      if ws.length > 0 && (t.takeWhile isSpace).length > 0 then
        some (t.dropWhile isSpace)
      else none
  | _ => none

/-- Fuelled scanner for the regex substitution pass: leftmost match,
first-alternative precedence, non-overlapping (scanning resumes after each
match); every match is replaced by a single `','`.  Since every match
consumes at least one character (`sepMatch_lt`), fuel `l.length` always
suffices; `replaceSepsGo_fuel` below shows the result is fuel-independent. -/
def replaceSepsGo : Nat → List Char → List Char
  | _, [] => []
  | 0, l => l
  | fuel + 1, c :: t =>
    match sepMatch (c :: t) with
    | some rest => ',' :: replaceSepsGo fuel rest
    | none => c :: replaceSepsGo fuel t

def replaceSeps (l : List Char) : List Char := replaceSepsGo l.length l

/-- Model of `str.split(',')`: `""` yields `[""]`, `"a,b"` yields
`["a", "b"]`, a leading/trailing comma yields an empty token. -/
def splitComma : List Char → List (List Char)
  | [] => [[]]
  | c :: t =>
    if c = ',' then [] :: splitComma t
    else
      match splitComma t with
      | [] => [[c]]
      | h :: r => (c :: h) :: r

/-- Model of `str.strip()`: remove leading and trailing whitespace. -/
def trimChars (l : List Char) : List Char :=
  ((l.dropWhile isSpace).reverse.dropWhile isSpace).reverse

def replaceSepsS (s : String) : String := ⟨replaceSeps s.data⟩

def splitCommaS (s : String) : List String := (splitComma s.data).map String.mk

def stripS (s : String) : String := ⟨trimChars s.data⟩

/-- The static alias table of `app.py` lines 23-37, in source order. -/
def country_alias_map : List (String × String) :=
  [("USA", "United States"),
   ("U.S.", "United States"),
   ("United States of America (USA)", "United States"),
   ("United States (US)", "United States"),
   ("UAE", "United Arab Emirates"),
   ("United Arab Emirates (UAE)", "United Arab Emirates"),
   ("Côte d'Ivoire", "Ivory Coast"),
   ("Republic of Korea", "South Korea"),
   ("Republic of Türkiye", "Turkey"),
   ("Turkiye", "Turkey"),
   ("Türkiye", "Turkey"),
   ("UK", "United Kingdom"),
   ("U.K.", "United Kingdom")]

/-- Model of `Series.replace(country_alias_map)`: an exact, case-sensitive,
whole-value lookup; unmatched values pass through unchanged. -/
def aliasSub (s : String) : String :=
  match country_alias_map.lookup s with
  | some v => v
  | none => s

/-! ## Records

One row of the unified record set (`all_data` after loading): the five sheet
columns plus the `Competition` tag. -/

structure Record where
  srNo : String
  teamName : String
  teamMember : String
  organization : String
  country : String
  competition : String
deriving DecidableEq, Repr

/-- The country normalizer (`df_split`, `app.py` lines 39-44), staged exactly
as the source's column operations: (1) regex-replace separators by commas,
(2) split on commas and explode one row per token, (3) strip each token,
(4) alias-substitute each token. -/
def df_split (recs : List Record) : List Record :=
  let s1 := recs.map (fun r => { r with country := replaceSepsS r.country })
  let s2 := s1.flatMap (fun r => (splitCommaS r.country).map
              (fun tok => { r with country := tok }))
  let s3 := s2.map (fun r => { r with country := stripS r.country })
  s3.map (fun r => { r with country := aliasSub r.country })

structure AggRow where
  competition : String
  country : String
  teams : Nat
  participants : Nat
  organizations : Nat
  participation : Option Nat
deriving DecidableEq, Repr

/-- The aggregate row built for one `(competition, country)` group. -/
def perRow (recs : List Record) (k : String × String) : AggRow :=
  let g := recs.filter (fun r => r.competition == k.1 && r.country == k.2)
  { competition := k.1
    country := k.2
    teams := (g.map (·.teamName)).dedup.length
    participants := g.length
    organizations := (g.map (·.organization)).dedup.length
    participation := none }

def per_competition (recs : List Record) : List AggRow :=
  ((recs.map (fun r => (r.competition, r.country))).dedup).map (perRow recs)

/-- The aggregate row built for one country over the union of all
competitions, including the distinct-competition count (`Participation`). -/
def allRow (recs : List Record) (c : String) : AggRow :=
  let g := recs.filter (fun r => r.country == c)
  { competition := "All Competitions"
    country := c
    teams := (g.map (·.teamName)).dedup.length
    participants := g.length
    organizations := (g.map (·.organization)).dedup.length
    participation := some ((g.map (·.competition)).dedup.length) }

def all_combined (recs : List Record) : List AggRow :=
  ((recs.map (·.country)).dedup).map (allRow recs)

def map_data (recs : List Record) : List AggRow :=
  per_competition recs ++ all_combined recs

/-! ## Presentation layer

The metric-label table and the pure content of the `update_map` callback
(`app.py` lines 72-77 and 124-172): competition filter, NaN fill, valid
metric set, metric reset, dropdown options and the colorbar tick. -/

def metric_labels : List (String × String) :=
  [("Teams", "Number of Teams"),
   ("Participants", "Number of Participants"),
   ("Organizations", "Number of Organizations"),
   ("Participation", "Number of Competitions")]

def all_metrics : List String := metric_labels.map (·.1)

def valid_metrics (selected_comp : String) : List String :=
  if selected_comp ≠ "All Competitions" then
    all_metrics.filter (fun m => m != "Participation")
  else all_metrics

/-- Model of `if selected_metric not in valid_metrics: selected_metric = valid_metrics[0]`. -/
def resolve_metric (selected_comp selected_metric : String) : String :=
  if selected_metric ∈ valid_metrics selected_comp then selected_metric
  else (valid_metrics selected_comp).headD ""

def metric_options (selected_comp : String) : List (String × String) :=
  (valid_metrics selected_comp).map
    (fun m => ((metric_labels.lookup m).getD "", m))

/-- Model of `df_subset[col].fillna(0).astype(int)`, read through the selected metric
column: the per-competition rows carry no `Participation` value, so it reads
as `0` there. -/
def metricValue (row : AggRow) (metric : String) : Nat :=
  if metric = "Teams" then row.teams
  else if metric = "Participants" then row.participants
  else if metric = "Organizations" then row.organizations
  else if metric = "Participation" then row.participation.getD 0
  else 0

/-- Python `round` on `max_val / 6` where `max_val : ℤ≥0`: the quotient is a
rational with denominator 6, so ties (remainder 3) occur exactly at `.5` and
are rounded half-to-even; all other remainders round to the nearest integer. -/
def pyRoundDiv6 (n : Nat) : Nat :=
  let q := n / 6
  let r := n % 6
  if r < 3 then q
  else if r > 3 then q + 1
  else if q % 2 = 0 then q else q + 1

structure UpdateOutput where
  metricOptions : List (String × String)
  selectedMetric : String
  dtick : Option Nat
deriving DecidableEq, Repr

/-- The pure content of the `update_map` callback: filter `map_data` to the
selected competition, resolve the metric against the valid set, rebuild the
dropdown options, and compute the colorbar tick
`1 if max_val <= 20 else max(1, round(max_val / 6))`.
`dtick` is `none` when the filtered table is empty (pandas `max()` is NaN
there and the source callback raises). -/
def update_map (mapData : List AggRow) (selected_comp selected_metric : String) :
    UpdateOutput :=
  let df_subset := mapData.filter (fun row => row.competition == selected_comp)
  let m := resolve_metric selected_comp selected_metric
  let max_val := (df_subset.map (fun row => metricValue row m)).max?
  { metricOptions := metric_options selected_comp
    selectedMetric := m
    dtick := max_val.map (fun mv => if mv ≤ 20 then 1 else Nat.max 1 (pyRoundDiv6 mv)) }

/-- The callback acting on the process state: `update_map` works on a filtered
copy (`map_data[...].copy()`), so the process-wide aggregate table it closes
over is returned unchanged. -/
def update_map_state (mapData : List AggRow) (selected_comp selected_metric : String) :
    UpdateOutput × List AggRow :=
  (update_map mapData selected_comp selected_metric, mapData)

/-! ## Record loading and forward fill

`load_competition` (`app.py` lines 13-19): a raw sheet row has five optional
cells; `ffill` propagates the last non-blank value of the four
team-identifying columns downward (`TEAM MEMBER` is not filled), then rows
with a blank `TEAM MEMBER` are dropped and survivors are tagged with the
sheet name. -/

structure RawRow where
  srNo : Option String
  teamName : Option String
  teamMember : Option String
  organization : Option String
  country : Option String
deriving DecidableEq, Repr

def emptyRaw : RawRow := ⟨none, none, none, none, none⟩

structure LoadedRow where
  row : RawRow
  competition : String
deriving DecidableEq, Repr

/-- One `ffill` step: each of the four team-identifying cells keeps its own
value if present and otherwise takes the carried value; `TEAM MEMBER` is
left untouched. -/
def fillRow (last r : RawRow) : RawRow :=
  { srNo := r.srNo.orElse fun _ => last.srNo
    teamName := r.teamName.orElse fun _ => last.teamName
    teamMember := r.teamMember
    organization := r.organization.orElse fun _ => last.organization
    country := r.country.orElse fun _ => last.country }

/-- Model of `DataFrame.ffill` over the four team-identifying columns, also returning
the final carry. -/
def ffillGo (last : RawRow) : List RawRow → List RawRow × RawRow
  | [] => ([], last)
  | r :: rs =>
      let r' := fillRow last r
      let p := ffillGo r' rs
      (r' :: p.1, p.2)

def ffill (last : RawRow) (rows : List RawRow) : List RawRow :=
  (ffillGo last rows).1

/-- Model of `load_competition`: ffill (with an all-blank initial carry, as nothing
precedes the first row), drop rows lacking a `TEAM MEMBER`, tag with the
sheet name. -/
def load_competition (sheet_name : String) (sheet : List RawRow) : List LoadedRow :=
  ((ffill emptyRaw sheet).filter (fun r => r.teamMember.isSome)).map
    (fun r => ⟨r, sheet_name⟩)

/-! ### Well-formed sheet shapes

A real registration sheet is a sequence of segments: team blocks (a leader
row carrying all five cells followed by member rows carrying only the
member name) and blank separator rows.  This is the shape under which the
spec's forward-fill property is stated. -/

inductive Seg where
  | block (leader : RawRow) (members : List String) : Seg
  | sep : Seg
deriving DecidableEq, Repr

/-- A continuation row of a multi-member team: only the member cell is set. -/
def contRow (m : String) : RawRow := ⟨none, none, some m, none, none⟩

def segRows : Seg → List RawRow
  | .block l ms => l :: ms.map contRow
  | .sep => [emptyRaw]

def renderSheet (segs : List Seg) : List RawRow := segs.flatMap segRows

def leaderComplete (r : RawRow) : Bool :=
  r.srNo.isSome && r.teamName.isSome && r.teamMember.isSome &&
    r.organization.isSome && r.country.isSome

def wfSeg : Seg → Bool
  | .block l _ => leaderComplete l
  | .sep => true

def wfSegs (segs : List Seg) : Prop := ∀ s ∈ segs, wfSeg s = true

/-- A member row after filling: the leader's four team-identifying cells
plus this member's name. -/
def filledCont (l : RawRow) (m : String) : RawRow :=
  ⟨l.srNo, l.teamName, some m, l.organization, l.country⟩

/-- What loading a well-formed sheet must produce: every block contributes
its leader followed by its member rows filled with exactly that leader's
team-identifying values; separator rows contribute nothing. -/
def expectedRows (name : String) : Seg → List LoadedRow
  | .block l ms => ⟨l, name⟩ :: ms.map (fun m => ⟨filledCont l m, name⟩)
  | .sep => []

def expectedLoad (name : String) (segs : List Seg) : List LoadedRow :=
  segs.flatMap (expectedRows name)

/-! ### Forward-fill lemmas -/

/-- Equality on the four forward-filled cells (the carry never reads
`teamMember`). -/
def sameFour (a b : RawRow) : Prop :=
  a.srNo = b.srNo ∧ a.teamName = b.teamName ∧
    a.organization = b.organization ∧ a.country = b.country

/-- Tests whether `pat` occurs at the head of `l`. -/
def hasPre : List Char → List Char → Bool
  | [], _ => true
  | _ :: _, [] => false
  | p :: ps, c :: cs => p = c && hasPre ps cs

/-- Tests whether `pat` occurs somewhere in `l` as a contiguous substring. -/
def hasSub (pat : List Char) : List Char → Bool
  | [] => hasPre pat []
  | c :: cs => hasPre pat (c :: cs) || hasSub pat cs

/-- The country field holds none of the split delimiters: no `&`, `/` or
`,` character and no occurrence of the word `and`. -/
def noDelim (l : List Char) : Bool :=
  !(l.contains '&' || l.contains '/' || l.contains ',' ||
      hasSub ['a', 'n', 'd'] l)

def noDelimS (s : String) : Bool := noDelim s.data

def recUSA : Record :=
  ⟨"1", "Team A", "Alice", "Org A", "USA", "IROS 2024"⟩

def recFrance : Record :=
  ⟨"2", "Team B", "Bruno", "Org B", "France", "IROS 2024"⟩

/-- One team (same name, same organization) appearing in two different
competitions from the same country. -/
def recsTwoComp : List Record :=
  [⟨"1", "Team X", "Alice", "Org A", "Germany", "IROS 2024"⟩,
   ⟨"1", "Team X", "Bob", "Org A", "Germany", "CDC 2024"⟩]

def allCombRowEx : AggRow :=
  ⟨"All Competitions", "Germany", 1, 2, 1, some 2⟩

/-- Two records with the same team name under the same competition. -/
def recsSameTeam : List Record :=
  [⟨"1", "Team X", "Alice", "Org A", "Germany", "IROS 2024"⟩,
   ⟨"1", "Team X", "Bob", "Org A", "Germany", "IROS 2024"⟩]

def perRowEx : AggRow := ⟨"IROS 2024", "Germany", 1, 2, 1, none⟩

def tbl15 : List AggRow := [⟨"All Competitions", "Germany", 15, 30, 12, some 2⟩]

def tbl42 : List AggRow := [⟨"All Competitions", "USA", 42, 120, 33, some 4⟩]

def tbl3 : List AggRow := [⟨"All Competitions", "Japan", 3, 9, 2, some 1⟩]

/-- A well-formed sheet: a two-member team, a blank separator row, then a
one-member team. -/
def segsEx : List Seg :=
  [Seg.block ⟨some "1", some "Team A", some "Alice", some "Org A", some "USA"⟩
     ["Bob"],
   Seg.sep,
   Seg.block ⟨some "2", some "Team B", some "Carol", some "Org B", some "Germany"⟩
     []]

/-! ### Aggregation and presentation helper lemmas -/

/-! ## Proofs -/

theorem dropWhile_length_le (p : α → Bool) (l : List α) :
    (l.dropWhile p).length ≤ l.length := by
  induction l with
  | nil => simp
  | cons c t ih =>
      by_cases h : p c
      · simp only [List.dropWhile, h]; simp; omega
      · simp [List.dropWhile, h]

theorem sepMatch_lt (l rest : List Char) (h : sepMatch l = some rest) :
    rest.length < l.length := by
  have hd : (l.dropWhile isSpace).length ≤ l.length := dropWhile_length_le isSpace l
  simp only [sepMatch] at h
  split at h
  · rename_i t heq
    cases h
    have h1 := dropWhile_length_le isSpace t
    rw [heq] at hd
    simp at hd
    omega
  · rename_i t heq
    cases h
    have h1 := dropWhile_length_le isSpace t
    rw [heq] at hd
    simp at hd
    omega
  · rename_i t heq
    split at h
    · cases h
      have h1 := dropWhile_length_le isSpace t
      rw [heq] at hd
      simp at hd
      omega
    · exact absurd h (by simp)
  · exact absurd h (by simp)

theorem replaceSepsGo_fuel :
    ∀ f₁ f₂ l, l.length ≤ f₁ → l.length ≤ f₂ →
      replaceSepsGo f₁ l = replaceSepsGo f₂ l := by
  intro f₁
  induction f₁ with
  | zero =>
      intro f₂ l h₁ _
      cases l with
      | nil => cases f₂ <;> rfl
      | cons c t => simp at h₁
  | succ a ih =>
      intro f₂ l h₁ h₂
      cases l with
      | nil => cases f₂ <;> rfl
      | cons c t =>
          cases f₂ with
          | zero => simp at h₂
          | succ b =>
              simp only [replaceSepsGo]
              cases hm : sepMatch (c :: t) with
              | some rest =>
                  have hlt := sepMatch_lt _ _ hm
                  simp only [List.length_cons] at h₁ h₂ hlt
                  have := ih b rest (by omega) (by omega)
                  simp [this]
              | none =>
                  simp only [List.length_cons] at h₁ h₂
                  have := ih b t (by omega) (by omega)
                  simp [this]

/-! ## Splitting on commas, trimming, alias substitution

`str.split(',')` / `explode` / `str.strip()` / `replace(country_alias_map)`
from `app.py` lines 41-44. -/

theorem fillRow_complete (last r : RawRow) (h : leaderComplete r = true) :
    fillRow last r = r := by
  simp only [leaderComplete, Bool.and_eq_true] at h
  obtain ⟨⟨⟨⟨h1, h2⟩, h3⟩, h4⟩, h5⟩ := h
  cases r with
  | mk srNo teamName teamMember organization country =>
      cases srNo <;> simp_all [Option.isSome]
      cases teamName <;> simp_all [Option.isSome]
      cases organization <;> simp_all [Option.isSome]
      cases country <;> simp_all [Option.isSome]
      simp [fillRow, Option.orElse]

theorem ffillGo_append (last : RawRow) (xs ys : List RawRow) :
    ffillGo last (xs ++ ys) =
      ((ffillGo last xs).1 ++ (ffillGo (ffillGo last xs).2 ys).1,
        (ffillGo (ffillGo last xs).2 ys).2) := by
  induction xs generalizing last with
  | nil => simp [ffillGo]
  | cons r rs ih => simp [ffillGo, ih]

theorem ffillGo_contRun (l : RawRow) (ms : List String) (c : RawRow)
    (hc : sameFour c l) :
    (ffillGo c (ms.map contRow)).1 = ms.map (filledCont l) ∧
      sameFour (ffillGo c (ms.map contRow)).2 l := by
  induction ms generalizing c with
  | nil => exact ⟨rfl, hc⟩
  | cons m ms ih =>
      obtain ⟨e1, e2, e3, e4⟩ := hc
      have hfill : fillRow c (contRow m) = filledCont l m := by
        simp [fillRow, contRow, filledCont, Option.orElse, e1, e2, e3, e4]
      have hnext : sameFour (filledCont l m) l := ⟨rfl, rfl, rfl, rfl⟩
      have := ih (filledCont l m) hnext
      simp only [List.map_cons, ffillGo, hfill]
      exact ⟨by simp [this.1], this.2⟩

theorem ffillGo_block (last l : RawRow) (ms : List String)
    (h : leaderComplete l = true) :
    (ffillGo last (l :: ms.map contRow)).1 = l :: ms.map (filledCont l) ∧
      sameFour (ffillGo last (l :: ms.map contRow)).2 l := by
  have hfill : fillRow last l = l := fillRow_complete last l h
  have hrun := ffillGo_contRun l ms l ⟨rfl, rfl, rfl, rfl⟩
  simp only [ffillGo, hfill]
  exact ⟨by simp [hrun.1], hrun.2⟩

theorem load_competition_aux (name : String) :
    ∀ segs (last : RawRow), wfSegs segs →
      (((ffillGo last (renderSheet segs)).1.filter
          (fun r => r.teamMember.isSome)).map (fun r => LoadedRow.mk r name)) =
        expectedLoad name segs := by
  intro segs
  induction segs with
  | nil => intro last _; rfl
  | cons s rest ih =>
      intro last hwf
      have hwf_s : wfSeg s = true := hwf s (by simp)
      have hwf_rest : wfSegs rest := fun x hx => hwf x (by simp [hx])
      have hrender : renderSheet (s :: rest) = segRows s ++ renderSheet rest := by
        simp [renderSheet]
      rw [hrender, ffillGo_append]
      cases s with
      | block l ms =>
          have hl : leaderComplete l = true := by simpa [wfSeg] using hwf_s
          have hblk := ffillGo_block last l ms hl
          have hmem : l.teamMember.isSome = true := by
            simp only [leaderComplete, Bool.and_eq_true] at hl
            exact hl.1.1.2
          simp only [segRows, hblk.1, List.filter_append, List.map_append]
          rw [ih _ hwf_rest]
          have hfilter :
              (l :: ms.map (filledCont l)).filter (fun r => r.teamMember.isSome) =
                l :: ms.map (filledCont l) := by
            rw [List.filter_eq_self]
            intro r hr
            rcases List.mem_cons.mp hr with h | h
            · rw [h]; exact hmem
            · rcases List.mem_map.mp h with ⟨m, _, rfl⟩
              rfl
          rw [hfilter]
          simp [expectedLoad, expectedRows, List.map_map, Function.comp]
      | sep =>
          have hdrop : fillRow last emptyRaw =
              ⟨last.srNo, last.teamName, none, last.organization, last.country⟩ := by
            simp [fillRow, emptyRaw, Option.orElse]
          simp only [segRows, ffillGo, hdrop, List.filter_append, List.map_append]
          rw [ih _ hwf_rest]
          simp [expectedLoad, expectedRows, List.filter]

/-! ### No-delimiter strings -/

theorem hasSub_append_right (pat ys : List Char) (h : hasSub pat ys = true) :
    ∀ xs, hasSub pat (xs ++ ys) = true := by
  intro xs
  induction xs with
  | nil => simpa using h
  | cons x t ih => simp [hasSub, ih]

theorem hasSub_of_hasPre (pat l : List Char) (h : hasPre pat l = true) :
    hasSub pat l = true := by
  cases l with
  | nil => simpa [hasSub] using h
  | cons c cs => simp [hasSub, h]

theorem mem_of_mem_dropWhile (p : α → Bool) (l : List α) (a : α)
    (h : a ∈ l.dropWhile p) : a ∈ l := (List.dropWhile_sublist p).mem h

theorem sepMatch_none_of_noDelim (l : List Char) (h : noDelim l = true) :
    sepMatch l = none := by
  simp only [noDelim, Bool.not_eq_eq_eq_not, Bool.not_true, Bool.or_eq_false_iff] at h
  obtain ⟨⟨⟨hamp, hslash⟩, _⟩, hand⟩ := h
  simp only [sepMatch]
  split
  · rename_i t heq
    exfalso
    have : '&' ∈ l := mem_of_mem_dropWhile isSpace l '&' (by rw [heq]; simp)
    simp [List.contains_eq_any_beq] at hamp
    exact hamp this
  · rename_i t heq
    exfalso
    have : '/' ∈ l := mem_of_mem_dropWhile isSpace l '/' (by rw [heq]; simp)
    simp [List.contains_eq_any_beq] at hslash
    exact hslash this
  · rename_i t heq
    exfalso
    have hpre : hasPre ['a', 'n', 'd'] (l.dropWhile isSpace) = true := by
      rw [heq]; simp [hasPre]
    have hsub : hasSub ['a', 'n', 'd'] (l.dropWhile isSpace) = true :=
      hasSub_of_hasPre _ _ hpre
    have : hasSub ['a', 'n', 'd'] (l.takeWhile isSpace ++ l.dropWhile isSpace) = true :=
      hasSub_append_right _ _ hsub _
    rw [List.takeWhile_append_dropWhile] at this
    simp [this] at hand
  · rfl

theorem noDelim_tail (c : Char) (t : List Char) (h : noDelim (c :: t) = true) :
    noDelim t = true := by
  simp only [noDelim, Bool.not_eq_eq_eq_not, Bool.not_true, Bool.or_eq_false_iff,
    List.contains_cons, hasSub] at h ⊢
  tauto

theorem replaceSepsGo_noDelim (fuel : Nat) :
    ∀ l : List Char, l.length ≤ fuel → noDelim l = true →
      replaceSepsGo fuel l = l := by
  induction fuel with
  | zero =>
      intro l hlen _
      cases l with
      | nil => rfl
      | cons c t => simp at hlen
  | succ a ih =>
      intro l hlen hnd
      cases l with
      | nil => rfl
      | cons c t =>
          have hm := sepMatch_none_of_noDelim _ hnd
          simp only [replaceSepsGo, hm]
          have := ih t (by simp at hlen; omega) (noDelim_tail c t hnd)
          simp [this]

theorem replaceSeps_noDelim (l : List Char) (h : noDelim l = true) :
    replaceSeps l = l := replaceSepsGo_noDelim l.length l (le_refl _) h

theorem splitComma_noComma (l : List Char) (h : l.contains ',' = false) :
    splitComma l = [l] := by
  induction l with
  | nil => rfl
  | cons c t ih =>
      simp only [List.contains_cons, Bool.or_eq_false_iff] at h
      have hc : ¬(c = ',') := by
        intro hc; rw [hc] at h; simp at h
      have ht := ih h.2
      simp [splitComma, hc, ht]

/-! ### Alias-lookup lemma -/

theorem lookup_none_of_no_key (l : List (String × String)) (s : String)
    (h : ∀ p ∈ l, p.1 ≠ s) : l.lookup s = none := by
  induction l with
  | nil => rfl
  | cons a t ih =>
      cases a with
      | mk k v =>
          have hk : k ≠ s := h (k, v) (by simp)
          have hb : (s == k) = false := beq_eq_false_iff_ne.mpr (Ne.symm hk)
          simp only [List.lookup, hb]
          exact ih (fun p hp => h p (by simp [hp]))

theorem aliasSub_not_key (s : String) (h : ∀ p ∈ country_alias_map, p.1 ≠ s) :
    aliasSub s = s := by
  simp [aliasSub, lookup_none_of_no_key country_alias_map s h]

/-! ### Per-record characterization of the country normalizer -/

/-- The country splitter acts record by record: split the
separator-replaced country field on commas, then one output record per
token with the token stripped and alias-substituted, all other fields
duplicated unchanged — splitting strictly before trimming before aliasing. -/
theorem df_split_eq (recs : List Record) :
    df_split recs = recs.flatMap (fun r =>
      (splitCommaS (replaceSepsS r.country)).map
        (fun tok => { r with country := aliasSub (stripS tok) })) := by
  induction recs with
  | nil => rfl
  | cons r rest ih =>
      simp only [df_split, List.map_cons, List.flatMap_cons, List.map_append,
        List.map_map] at ih ⊢
      rw [ih]
      simp [Function.comp]

/-! ## Concrete data used in the theorems below -/

theorem per_competition_mem (recs : List Record) (row : AggRow)
    (h : row ∈ per_competition recs) :
    row = perRow recs (row.competition, row.country) := by
  rcases List.mem_map.mp h with ⟨k, _, rfl⟩
  rfl

theorem all_combined_mem (recs : List Record) (row : AggRow)
    (h : row ∈ all_combined recs) :
    row = allRow recs row.country := by
  rcases List.mem_map.mp h with ⟨c, _, rfl⟩
  rfl

theorem valid_metrics_all :
    valid_metrics "All Competitions" =
      ["Teams", "Participants", "Organizations", "Participation"] := by decide

theorem valid_metrics_other (c : String) (hc : c ≠ "All Competitions") :
    valid_metrics c = ["Teams", "Participants", "Organizations"] := by
  unfold valid_metrics
  rw [if_pos hc]
  decide

theorem resolve_metric_mem (c m : String) :
    resolve_metric c m ∈ valid_metrics c := by
  by_cases h : m ∈ valid_metrics c
  · simp [resolve_metric, h]
  · simp only [resolve_metric, if_neg h]
    by_cases hc : c = "All Competitions"
    · subst hc; rw [valid_metrics_all]; decide
    · rw [valid_metrics_other c hc]; decide

/-- The Python `round(n / 6)` model is within half of the exact quotient:
`|6 * pyRoundDiv6 n - n| ≤ 3`. -/
theorem pyRoundDiv6_close (n : Nat) :
    ((6 * pyRoundDiv6 n : Int) - n).natAbs ≤ 3 := by
  simp only [pyRoundDiv6]
  split
  · omega
  · split
    · omega
    · split
      · omega
      · omega

/-! ## Claim theorems -/

/-- C1: the "All Competitions" aggregate rows are a separate grouping
pass over the union of all competitions' records — per country the team
count is the number of distinct team names, the participant count the
number of records, the organization count the number of distinct
organizations, all taken over every record of that country regardless of
competition (set semantics, `toFinset.card`), and the fourth count
(`Participation`) equals the number of distinct competition identifiers in
which that country's records appear.  Moreover the rows are not obtained by
summing per-competition rows: on `recsTwoComp` (one team entering two
competitions) the combined team count is 1 while the per-competition team
counts sum to 2. -/
theorem all_combined_union_pass :
    (∀ (recs : List Record) (row : AggRow), row ∈ all_combined recs →
      row.teams =
        ((recs.filter (fun r => r.country == row.country)).map
          (·.teamName)).toFinset.card ∧
      row.participants = (recs.filter (fun r => r.country == row.country)).length ∧
      row.organizations =
        ((recs.filter (fun r => r.country == row.country)).map
          (·.organization)).toFinset.card ∧
      row.participation =
        some (((recs.filter (fun r => r.country == row.country)).map
          (·.competition)).toFinset.card)) ∧
    ((all_combined recsTwoComp).map (·.teams) = [1] ∧
      ((per_competition recsTwoComp).map (·.teams)).sum = 2) := by
  constructor
  · intro recs row h
    rcases List.mem_map.mp h with ⟨c, _, rfl⟩
    refine ⟨?_, rfl, ?_, ?_⟩
    · simp [allRow, List.card_toFinset]
    · simp [allRow, List.card_toFinset]
    · simp [allRow, List.card_toFinset]
  · exact ⟨by decide, by decide⟩

theorem all_combined_union_pass_witness :
    allCombRowEx ∈ all_combined recsTwoComp ∧
      allCombRowEx.participation =
        some (((recsTwoComp.filter
          (fun r => r.country == allCombRowEx.country)).map
            (·.competition)).toFinset.card) :=
  ⟨by decide,
    (all_combined_union_pass.1 recsTwoComp allCombRowEx (by decide)).2.2.2⟩

/-- C2: the valid metric set excludes the competition-count metric
(`"Participation"`) exactly when the selected competition is not
`"All Competitions"`; every other metric is always valid; whenever the
selected metric is not in the valid set, the callback resets it to the
first valid metric, which is `"Teams"`; in particular switching to a
specific competition while `"Participation"` is selected yields `"Teams"`
and removes `"Participation"` from the options. -/
theorem metric_validity_reset :
    (∀ comp : String,
      ("Participation" ∉ valid_metrics comp ↔ comp ≠ "All Competitions")) ∧
    (∀ comp m : String, m ∈ all_metrics → m ≠ "Participation" →
      m ∈ valid_metrics comp) ∧
    (∀ comp : String, (valid_metrics comp).headD "" = "Teams") ∧
    (∀ comp metric : String, metric ∉ valid_metrics comp →
      resolve_metric comp metric = "Teams") ∧
    (resolve_metric "IROS 2024" "Participation" = "Teams" ∧
      "Participation" ∉ (metric_options "IROS 2024").map (·.2)) := by
  have hcase : ∀ comp : String,
      valid_metrics comp = ["Teams", "Participants", "Organizations",
        "Participation"] ∧ comp = "All Competitions" ∨
      valid_metrics comp = ["Teams", "Participants", "Organizations"] ∧
        comp ≠ "All Competitions" := by
    intro comp
    by_cases hc : comp = "All Competitions"
    · exact Or.inl ⟨by rw [hc, valid_metrics_all], hc⟩
    · exact Or.inr ⟨valid_metrics_other comp hc, hc⟩
  refine ⟨?_, ?_, ?_, ?_, ?_, ?_⟩
  · intro comp
    rcases hcase comp with ⟨hv, hc⟩ | ⟨hv, hc⟩ <;> rw [hv] <;> simp [hc]
  · intro comp m hm hne
    have hm4 : m = "Teams" ∨ m = "Participants" ∨ m = "Organizations" ∨
        m = "Participation" := by
      simpa [all_metrics, metric_labels] using hm
    rcases hcase comp with ⟨hv, _⟩ | ⟨hv, _⟩ <;> rw [hv] <;>
      rcases hm4 with h | h | h | h <;> simp [h] at hne ⊢
  · intro comp
    rcases hcase comp with ⟨hv, _⟩ | ⟨hv, _⟩ <;> rw [hv] <;> rfl
  · intro comp metric hm
    have h1 : resolve_metric comp metric = (valid_metrics comp).headD "" := by
      simp [resolve_metric, hm]
    rw [h1]
    rcases hcase comp with ⟨hv, _⟩ | ⟨hv, _⟩ <;> rw [hv] <;> rfl
  · decide
  · decide

theorem metric_validity_reset_witness :
    resolve_metric "CDC 2024" "Participation" = "Teams" :=
  metric_validity_reset.2.2.2.1 "CDC 2024" "Participation" (by decide)

/-- C3: the colorbar tick interval equals 1 when the maximum value of
the selected metric over the filtered rows is at most 20, and otherwise
equals that maximum divided by 6 and rounded (Python `round`, half to even
— `pyRoundDiv6` stays within half of the exact quotient), floored at 1;
in particular maximum 15 gives tick 1, maximum 42 gives tick 7, and
maximum 3 gives tick 1. -/
theorem colorbar_tick_rule :
    (∀ (tbl : List AggRow) (comp metric : String) (mv : Nat),
      ((tbl.filter (fun row => row.competition == comp)).map
          (fun row => metricValue row (resolve_metric comp metric))).max? =
        some mv →
      (update_map tbl comp metric).dtick =
        some (if mv ≤ 20 then 1 else Nat.max 1 (pyRoundDiv6 mv))) ∧
    (∀ n : Nat, ((6 * pyRoundDiv6 n : Int) - n).natAbs ≤ 3) ∧
    (update_map tbl15 "All Competitions" "Teams").dtick = some 1 ∧
    (update_map tbl42 "All Competitions" "Teams").dtick = some 7 ∧
    (update_map tbl3 "All Competitions" "Teams").dtick = some 1 := by
  refine ⟨?_, pyRoundDiv6_close, by decide, by decide, by decide⟩
  intro tbl comp metric mv h
  simp only [update_map, h]
  rfl

theorem colorbar_tick_rule_witness :
    (update_map tbl42 "All Competitions" "Teams").dtick =
      some (if 42 ≤ 20 then 1 else Nat.max 1 (pyRoundDiv6 42)) :=
  colorbar_tick_rule.1 tbl42 "All Competitions" "Teams" 42 (by decide)

/-- C4: the country normalizer first replaces the separators `&`, `/`
and the word `and` with a single comma (`replaceSepsS`), then splits the
field into tokens, producing one output record per token with all other
fields duplicated unchanged, then trims each token (`stripS`), and only
then alias-substitutes it (`aliasSub`) — splitting happens strictly before
trimming and before alias substitution. -/
theorem country_normalizer_order (recs : List Record) :
    df_split recs = recs.flatMap (fun r =>
      (splitCommaS (replaceSepsS r.country)).map
        (fun tok => { r with country := aliasSub (stripS tok) })) :=
  df_split_eq recs

/-- C5 counterexample: `"USA"` contains no delimiter, yet the
normalization pipeline rewrites the country to `"United States"`, so the
output record is not identical to the input record. -/
theorem single_country_not_identical :
    noDelimS recUSA.country = true ∧ df_split [recUSA] ≠ [recUSA] :=
  ⟨by decide, by decide⟩

/-- C5 (amended): a record whose country field contains no delimiter
(`&`, `/`, the word `and`, or a comma) produces exactly one output record,
identical to the input except that the country is whitespace-trimmed and
alias-substituted; if the country is moreover already trimmed and not an
alias key, the single output record is identical to the input. -/
theorem single_country_split (r : Record) (h : noDelimS r.country = true) :
    df_split [r] = [{ r with country := aliasSub (stripS r.country) }] ∧
      (stripS r.country = r.country →
        (∀ p ∈ country_alias_map, p.1 ≠ r.country) → df_split [r] = [r]) := by
  have hnd : noDelim r.country.data = true := h
  have hrep : replaceSepsS r.country = r.country := by
    unfold replaceSepsS
    rw [replaceSeps_noDelim _ hnd]
  have hcomma : r.country.data.contains ',' = false := by
    simp only [noDelim, Bool.not_eq_eq_eq_not, Bool.not_true,
      Bool.or_eq_false_iff] at hnd
    exact hnd.1.2
  have hsplit : splitCommaS r.country = [r.country] := by
    unfold splitCommaS
    rw [splitComma_noComma _ hcomma]
    rfl
  have hone : df_split [r] = [{ r with country := aliasSub (stripS r.country) }] := by
    rw [df_split_eq]
    simp [hrep, hsplit]
  refine ⟨hone, fun hstrip hkey => ?_⟩
  rw [hone, hstrip, aliasSub_not_key r.country hkey]

theorem single_country_split_witness :
    noDelimS recFrance.country = true ∧ df_split [recFrance] = [recFrance] :=
  ⟨by decide,
    (single_country_split recFrance (by decide)).2 (by decide) (by decide)⟩

/-- C6: alias substitution replaces a country token with its canonical
value exactly when the token equals an alias-table key as an exact,
case-sensitive full string: every key of `country_alias_map` maps to its
canonical value — in particular `"U.S."`, `"USA"` and
`"United States of America (USA)"` all map to `"United States"` — while
any string that is not a key, such as the lowercase `"usa"`, passes through
unchanged. -/
theorem alias_exact_match :
    aliasSub "U.S." = "United States" ∧
    aliasSub "USA" = "United States" ∧
    aliasSub "United States of America (USA)" = "United States" ∧
    aliasSub "usa" = "usa" ∧
    (∀ p ∈ country_alias_map, aliasSub p.1 = p.2) ∧
    (∀ s : String, (∀ p ∈ country_alias_map, p.1 ≠ s) → aliasSub s = s) := by
  refine ⟨by decide, by decide, by decide, by decide, by decide, ?_⟩
  exact fun s hs => aliasSub_not_key s hs

theorem alias_exact_match_witness : aliasSub "Germany" = "Germany" :=
  alias_exact_match.2.2.2.2.2 "Germany" (by decide)

/-- C7: on a well-formed sheet (team blocks whose leader row carries
all team-identifying cells, member rows carrying only the member name, and
blank separator rows), forward-filling fills each team's block of member
rows with exactly that team's values — the fill never crosses a separator
into a different team's block, since each block's rows take their values
from that block's own leader — and rows lacking a team-member name are
then discarded.  Additionally, unconditionally, every loaded row has a
team-member name. -/
theorem forward_fill_blocks :
    (∀ (name : String) (segs : List Seg), wfSegs segs →
      load_competition name (renderSheet segs) = expectedLoad name segs) ∧
    (∀ (name : String) (sheet : List RawRow) (lr : LoadedRow),
      lr ∈ load_competition name sheet → lr.row.teamMember.isSome = true) := by
  constructor
  · intro name segs hwf
    exact load_competition_aux name segs emptyRaw hwf
  · intro name sheet lr h
    rcases List.mem_map.mp h with ⟨r, hr, rfl⟩
    simpa using (List.mem_filter.mp hr).2

theorem forward_fill_blocks_witness :
    wfSegs segsEx ∧
      load_competition "IROS 2024" (renderSheet segsEx) =
        expectedLoad "IROS 2024" segsEx :=
  ⟨by unfold wfSegs; decide,
    forward_fill_blocks.1 "IROS 2024" segsEx (by unfold wfSegs; decide)⟩

/-- C8: every count in both aggregate result sets is a non-negative
integer, and every "distinct" count uses set semantics over its field
within its grouping (`toFinset.card`): in particular two records with the
same team name under the same competition count as one team, not two
(`recsSameTeam`). -/
theorem aggregate_counts_set_semantics :
    (∀ (recs : List Record) (row : AggRow), row ∈ per_competition recs →
      row.teams = ((recs.filter (fun r =>
          r.competition == row.competition && r.country == row.country)).map
            (·.teamName)).toFinset.card ∧
      row.organizations = ((recs.filter (fun r =>
          r.competition == row.competition && r.country == row.country)).map
            (·.organization)).toFinset.card ∧
      row.participants = (recs.filter (fun r =>
          r.competition == row.competition && r.country == row.country)).length) ∧
    (∀ (recs : List Record) (row : AggRow), row ∈ map_data recs →
      0 ≤ (row.teams : Int) ∧ 0 ≤ (row.participants : Int) ∧
        0 ≤ (row.organizations : Int) ∧
        ∀ p : Nat, row.participation = some p → 0 ≤ (p : Int)) ∧
    ((per_competition recsSameTeam).map (·.teams) = [1]) := by
  refine ⟨?_, ?_, by decide⟩
  · intro recs row h
    rcases List.mem_map.mp h with ⟨k, _, rfl⟩
    exact ⟨by simp [perRow, List.card_toFinset], by
      simp [perRow, List.card_toFinset], rfl⟩
  · intro recs row _
    exact ⟨Int.natCast_nonneg _, Int.natCast_nonneg _, Int.natCast_nonneg _,
      fun p _ => Int.natCast_nonneg _⟩

theorem aggregate_counts_set_semantics_witness :
    perRowEx ∈ per_competition recsSameTeam ∧
      perRowEx.teams = ((recsSameTeam.filter (fun r =>
        r.competition == perRowEx.competition &&
          r.country == perRowEx.country)).map (·.teamName)).toFinset.card :=
  ⟨by decide,
    (aggregate_counts_set_semantics.1 recsSameTeam perRowEx (by decide)).1⟩

/-- C9: the reactive callback never mutates the combined aggregate
table: it works on a filtered copy, so after any sequence of
(competition, metric) interactions the process-wide table is unchanged. -/
theorem callback_preserves_table (tbl : List AggRow)
    (inputs : List (String × String)) :
    inputs.foldl (fun t p => (update_map_state t p.1 p.2).2) tbl = tbl := by
  induction inputs generalizing tbl with
  | nil => rfl
  | cons p ps ih =>
      simp only [List.foldl_cons, update_map_state]
      exact ih tbl

/-- C10: the selected metric returned by the callback is always one of
the option values returned by the same call, so the UI can never display a
selected metric absent from its own dropdown options. -/
theorem selected_metric_in_options (tbl : List AggRow) (comp metric : String) :
    (update_map tbl comp metric).selectedMetric ∈
      ((update_map tbl comp metric).metricOptions).map (·.2) := by
  have hopts : ((update_map tbl comp metric).metricOptions).map (·.2) =
      valid_metrics comp := by
    simp only [update_map, metric_options, List.map_map]
    have hf : ((fun x : String × String => x.2) ∘
        fun m => ((metric_labels.lookup m).getD "", m)) =
          fun m : String => m := rfl
    rw [hf]
    exact List.map_id _
  rw [hopts]
  exact resolve_metric_mem comp metric
